import Mathlib

/-!
Verification of the flash-programming engine in `piksi_tools/flash.py`.

The engine keeps three monotone counters (`_total_callbacks_expected`,
`_done_callbacks_received`, `_read_callbacks_received`), a read-fragment
accumulator (`rd_cb_addrs` / `rd_cb_lens` / `rd_cb_data`), and a FIFO command
queue drained by `run`.  Each dispatched command turns into a sequence of
primitive effects: resetting the accumulator, bumping the expected-callback
counter, or sending one wire message over the link.  We embed those effects as
an explicit `Action` type so that the order of increments and sends inside one
command is visible, and interpret action lists over a `FlashState` record that
mirrors the Python object's fields (plus a log of sent messages standing in
for `link.send_message`).
-/

set_option autoImplicit false

namespace PiksiFlash

/-- `SECTORSIZE = 64*1024` from flash.py. -/
def SECTORSIZE : Nat := 64 * 1024

/-- `ADDRS_PER_READ_CALLBACK = 16` from flash.py: maximum number of addresses
returned by the STM in a single read callback. -/
def ADDRS_PER_READ_CALLBACK : Nat := 16

/-- `ADDRS_PER_WRITE_CALLBACK = 128` from flash.py: maximum number of
addresses written in a single write callback to the STM. -/
def ADDRS_PER_WRITE_CALLBACK : Nat := 128

/-- `PENDING_COMMANDS_LIMIT = 20` from flash.py. -/
def PENDING_COMMANDS_LIMIT : Nat := 20

/-- `roundup_multiple(x, multiple)` from flash.py. -/
def roundup_multiple (x multiple : Nat) : Nat :=
  if x % multiple = 0 then x else x + multiple - x % multiple

/-- `rounddown_multiple(x, multiple)` from flash.py. -/
def rounddown_multiple (x multiple : Nat) : Nat :=
  if x % multiple = 0 then x else x - x % multiple

/-- Ceiling division on naturals: the value of Python
`int(ceil(float(a) / b))` for the in-range arguments used by flash.py. -/
def ceilDiv (a b : Nat) : Nat := (a + b - 1) / b

/-- The four payload bytes of `struct.pack("<I", n)` (little-endian). -/
def packLE4 (n : Nat) : List Nat :=
  [n % 256, n / 256 % 256, n / 65536 % 256, n / 16777216 % 256]

/-- Value of a little-endian byte list (first byte least significant);
an independent decoder used to state bit-exactness of the encodings. -/
def decodeLE : List Nat → Nat
  | [] => 0
  | b :: bs => b + 256 * decodeLE bs

/-- Value of a big-endian byte list, as `struct.unpack('>I', bytes)` reads
its four input bytes (first byte most significant). -/
def decodeBE (bs : List Nat) : Nat := bs.foldl (fun acc b => acc * 256 + b) 0

/-- A high-level flash command, the tagged content of `_command_queue`
(the Python queue stores `(method_name, args)` pairs; the three methods ever
scheduled are `_erase_sector`, `_write` and `_read`). -/
inductive Command where
  | erase_sector (addr : Nat)
  | write (addr : Nat) (data : List Nat)
  | read (addr : Nat) (length : Nat)
  deriving DecidableEq

/-- One primitive effect performed while executing a command:
clearing the read accumulator, `_add_to_expected_callbacks(n)`, or
`link.send_message(msg_id, payload)`. -/
inductive Action where
  | resetRead
  | addExpected (n : Nat)
  | send (msgId : Nat) (payload : List Nat)
  deriving DecidableEq

/-- State of one `Flash` engine instance: the three callback counters, the
read-fragment accumulator lists, and the log of messages handed to
`link.send_message` (the link is fire-and-forget, so a log captures it). -/
structure FlashState where
  total_callbacks_expected : Nat
  done_callbacks_received : Nat
  read_callbacks_received : Nat
  rd_cb_addrs : List Nat
  rd_cb_lens : List Nat
  rd_cb_data : List Nat
  sent : List (Nat × List Nat)
  deriving DecidableEq

/-- The freshly constructed engine: all counters zero, accumulators empty. -/
def initState : FlashState := ⟨0, 0, 0, [], [], [], []⟩

/-- Interpretation of one primitive effect on the engine state. -/
def applyAction (s : FlashState) : Action → FlashState
  | .resetRead => { s with rd_cb_addrs := [], rd_cb_lens := [], rd_cb_data := [] }
  | .addExpected n =>
      { s with total_callbacks_expected := s.total_callbacks_expected + n }
  | .send msgId payload => { s with sent := s.sent ++ [(msgId, payload)] }

/-- Run a list of primitive effects in order. -/
def applyActions (s : FlashState) (tr : List Action) : FlashState :=
  tr.foldl applyAction s

/-- `_erase_sector(addr)` from flash.py: pack `"<I"` of the address,
add 1 expected callback, send message `0xF2`. -/
def eraseActions (addr : Nat) : List Action :=
  [Action.addExpected 1, Action.send 0xF2 (packLE4 addr)]

/-- `_read(addr, length)` from flash.py: clear the accumulator, pack
`"<II"` of address and length, add `ceil(length/16)` expected callbacks,
send message `0xF1`. -/
def readActions (addr length : Nat) : List Action :=
  [Action.resetRead,
   Action.addExpected (ceilDiv length ADDRS_PER_READ_CALLBACK),
   Action.send 0xF1 (packLE4 addr ++ packLE4 length)]

/-- `_write(addr, data)` from flash.py: while more than 128 bytes remain,
send a 128-byte chunk (header `"<IB"` of address and chunk length), advancing
the address by 128; finally send the residue (possibly empty) the same way.
Every send is preceded by `_add_to_expected_callbacks(1)`. -/
def writeActions (addr : Nat) (data : List Nat) : List Action :=
  if h : data.length > ADDRS_PER_WRITE_CALLBACK then
    Action.addExpected 1 ::
      Action.send 0xF0 (packLE4 addr ++ [(data.take ADDRS_PER_WRITE_CALLBACK).length]
        ++ data.take ADDRS_PER_WRITE_CALLBACK) ::
      writeActions (addr + ADDRS_PER_WRITE_CALLBACK) (data.drop ADDRS_PER_WRITE_CALLBACK)
  else
    [Action.addExpected 1, Action.send 0xF0 (packLE4 addr ++ [data.length] ++ data)]
termination_by data.length
decreasing_by simp only [ADDRS_PER_WRITE_CALLBACK, List.length_drop] at h ⊢; omega

/-- The `(address, chunk)` pairs that `_write`'s loop walks through, in send
order: an abstract view of `writeActions` (see `sendsOf_writeActions`). -/
def writeChunks (addr : Nat) (data : List Nat) : List (Nat × List Nat) :=
  if h : data.length > ADDRS_PER_WRITE_CALLBACK then
    (addr, data.take ADDRS_PER_WRITE_CALLBACK) ::
      writeChunks (addr + ADDRS_PER_WRITE_CALLBACK) (data.drop ADDRS_PER_WRITE_CALLBACK)
  else
    [(addr, data)]
termination_by data.length
decreasing_by simp only [ADDRS_PER_WRITE_CALLBACK, List.length_drop] at h ⊢; omega

/-- The actions a queued command performs when the dispatcher executes it
(`cmd_func(*args)` in `run`). -/
def commandActions : Command → List Action
  | .erase_sector addr => eraseActions addr
  | .write addr data => writeActions addr data
  | .read addr length => readActions addr length

/-- Execute one dequeued command against the engine state. -/
def execCommand (c : Command) (s : FlashState) : FlashState :=
  applyActions s (commandActions c)

/-- `flash_operations_pending` from flash.py:
`expected - done - read_done` (as a Python integer, so over `Int`). -/
def flash_operations_pending (s : FlashState) : Int :=
  (s.total_callbacks_expected : Int) - s.done_callbacks_received
    - s.read_callbacks_received

/-- `_flash_done_callback` from flash.py: count one erase/write completion. -/
def flash_done_callback (s : FlashState) : FlashState :=
  { s with done_callbacks_received := s.done_callbacks_received + 1 }

/-- `_flash_read_callback(data)` from flash.py: `data` is 3 bytes of
big-endian address, 1 length byte, then that many data bytes.  The address is
unpacked as `'>I'` of `'\x00' + data[0:3]`, the length as byte `data[3]`, and
`data[4:]` is appended to the accumulated bytes. -/
def flash_read_callback (s : FlashState) (data : List Nat) : FlashState :=
  { s with
    rd_cb_addrs := s.rd_cb_addrs ++ [decodeBE (0 :: data.take 3)],
    rd_cb_lens := s.rd_cb_lens ++ [data.getD 3 0],
    rd_cb_data := s.rd_cb_data ++ data.drop 4,
    read_callbacks_received := s.read_callbacks_received + 1 }

/-- Outcome of `read_cb_sanity_check`: normal return, or one of its two
`Exception`s. -/
inductive SanityResult where
  | ok
  | discontinuous
  | lengthMismatch
  deriving DecidableEq

/-- The `expected_addrs` list built by `read_cb_sanity_check`: it starts at
the given address and accumulates the given lengths one by one. -/
def cumAddrs (start : Nat) : List Nat → List Nat
  | [] => [start]
  | l :: ls => start :: cumAddrs (start + l) ls

/-- `read_cb_sanity_check` from flash.py over accumulator contents
`(addrs, lens, data)`: build `expected_addrs` from `addrs[0]` and
`lens[0:-1]`; raise the discontinuity error if `addrs` differs from it, then
the length-mismatch error if `sum(lens) != len(data)`.  On an empty `addrs`
the Python code faults on `addrs[0]` before reaching either check, which the
embedding renders as `none`. -/
def read_cb_sanity_check (addrs lens data : List Nat) : Option SanityResult :=
  match addrs with
  | [] => none
  | a0 :: _ =>
    let expected_addrs := cumAddrs a0 lens.dropLast
    if addrs ≠ expected_addrs then some SanityResult.discontinuous
    else if lens.sum ≠ data.length then some SanityResult.lengthMismatch
    else some SanityResult.ok

/-- State seen by one iteration of the `run` loop: the command queue plus the
engine's counters and logs. -/
structure LoopState where
  command_queue : List Command
  fs : FlashState
  deriving DecidableEq

/-- One iteration of the `run` loop body: if the queue is non-empty and
`flash_operations_pending() < PENDING_COMMANDS_LIMIT`, pop the head command
and execute it synchronously; otherwise sleep (no state change). -/
def runStep (s : LoopState) : LoopState :=
  if s.command_queue.length ≠ 0 ∧
      flash_operations_pending s.fs < (PENDING_COMMANDS_LIMIT : Int) then
    match s.command_queue with
    | [] => s
    | c :: rest => ⟨rest, execCommand c s.fs⟩
  else s

/-- The external Intel HEX image (`IntelHex` collaborator): minimum address,
maximum address, and `tobinstr(start, size)` range extraction. -/
structure Ihx where
  minaddr : Nat
  maxaddr : Nat
  tobinstr : Nat → Nat → List Nat

/-- Python `range(start, stop, step)` for a positive step, as a list. -/
def pythonRange (start stop step : Nat) : List Nat :=
  List.range' start ((stop - start + step - 1) / step) step

/-- `write_ihx` from flash.py, as the list of commands it enqueues, in
order: `erase_sector(addr)` for each sector boundary from
`rounddown_multiple(minaddr, SECTORSIZE)` up to
`roundup_multiple(maxaddr, SECTORSIZE)`, then `write(addr, tobinstr(addr,
128))` for each page boundary from `rounddown_multiple(minaddr, 128)` up to
`roundup_multiple(maxaddr, 128)`. -/
def write_ihx (ihx : Ihx) : List Command :=
  (pythonRange (rounddown_multiple ihx.minaddr SECTORSIZE)
      (roundup_multiple ihx.maxaddr SECTORSIZE) SECTORSIZE).map Command.erase_sector
    ++ (pythonRange (rounddown_multiple ihx.minaddr ADDRS_PER_WRITE_CALLBACK)
      (roundup_multiple ihx.maxaddr ADDRS_PER_WRITE_CALLBACK)
      ADDRS_PER_WRITE_CALLBACK).map
      (fun addr => Command.write addr (ihx.tobinstr addr ADDRS_PER_WRITE_CALLBACK))

/-- Number of erase/write completion callbacks (`_flash_done_callback`) the
STM will generate for one sent message: per the flash.py header comment, each
`0xF2` sector erase and each `0xF0` write of ≤128 bytes is one callback. -/
def msgDoneCbs (m : Nat × List Nat) : Nat :=
  if m.1 = 0xF0 ∨ m.1 = 0xF2 then 1 else 0

/-- Number of read-fragment callbacks (`_flash_read_callback`) the STM will
generate for one sent message: per the flash.py header comment, a `0xF1` read
request is answered in fragments of ≤16 addresses, so `ceil(length/16)`
callbacks, the length being bytes 4..8 of the request payload. -/
def msgReadCbs (m : Nat × List Nat) : Nat :=
  if m.1 = 0xF1 then ceilDiv (decodeLE (m.2.drop 4)) ADDRS_PER_READ_CALLBACK else 0

/-- Total erase/write completions the sent messages can still generate. -/
def doneCallbacksFor (sent : List (Nat × List Nat)) : Nat :=
  (sent.map msgDoneCbs).sum

/-- Total read-fragment callbacks the sent messages can still generate. -/
def readCallbacksFor (sent : List (Nat × List Nat)) : Nat :=
  (sent.map msgReadCbs).sum

/-- The wire messages among a list of primitive effects, in emission order. -/
def sendsOf (tr : List Action) : List (Nat × List Nat) :=
  tr.filterMap fun a =>
    match a with
    | Action.send msgId payload => some (msgId, payload)
    | _ => none

/-- Total amount added to `_total_callbacks_expected` by a list of effects. -/
def trExpected (tr : List Action) : Nat :=
  (tr.map fun a =>
    match a with
    | Action.addExpected n => n
    | _ => 0).sum

/-- Total erase/write completions the sends in a list of effects generate. -/
def trDoneCbs (tr : List Action) : Nat :=
  (tr.map fun a =>
    match a with
    | Action.send msgId payload => msgDoneCbs (msgId, payload)
    | _ => 0).sum

/-- Total read-fragment callbacks the sends in a list of effects generate. -/
def trReadCbs (tr : List Action) : Nat :=
  (tr.map fun a =>
    match a with
    | Action.send msgId payload => msgReadCbs (msgId, payload)
    | _ => 0).sum

/-- The claim's continuity condition on accumulated fragments: every
consecutive pair of fragments satisfies
`next.address = prev.address + prev.length`. -/
def contiguousFrags (addrs lens : List Nat) : Prop :=
  ∀ i, i + 1 < addrs.length →
    addrs.getD (i + 1) 0 = addrs.getD i 0 + lens.getD i 0

/-- The claim's description of which sectors `write_ihx` erases: the
`SECTORSIZE` multiples from `floor(minaddr)` up to (exclusive)
`ceil(maxaddr)`. -/
def erasedSector (ihx : Ihx) (a : Nat) : Prop :=
  a % SECTORSIZE = 0 ∧ rounddown_multiple ihx.minaddr SECTORSIZE ≤ a ∧
    a < roundup_multiple ihx.maxaddr SECTORSIZE

/-- The claim's description of which pages `write_ihx` writes: the 128-byte
boundaries from `floor(minaddr)` up to (exclusive) `ceil(maxaddr)`. -/
def writtenPage (ihx : Ihx) (a : Nat) : Prop :=
  a % ADDRS_PER_WRITE_CALLBACK = 0 ∧
    rounddown_multiple ihx.minaddr ADDRS_PER_WRITE_CALLBACK ≤ a ∧
    a < roundup_multiple ihx.maxaddr ADDRS_PER_WRITE_CALLBACK

instance decidableErasedSector (ihx : Ihx) (a : Nat) :
    Decidable (erasedSector ihx a) := by
  unfold erasedSector
  infer_instance

instance decidableWrittenPage (ihx : Ihx) (a : Nat) :
    Decidable (writtenPage ihx a) := by
  unfold writtenPage
  infer_instance

/-- A concrete image spanning `[0x1000, 0x1FFF]` (the spec's example),
with an arbitrary all-gap extraction. -/
def sampleIhx : Ihx := ⟨0x1000, 0x1FFF, fun _ _ => []⟩

/-- Engine states reachable by interleaving command dispatches with inbound
callbacks.  Dispatches are unconstrained; a callback can only be delivered in
response to a message actually sent (the STM produces exactly
`msgDoneCbs`/`msgReadCbs` callbacks per message, so the number received never
passes the number generated by the sent log). -/
inductive Reachable : FlashState → Prop where
  | init : Reachable initState
  | dispatch (s : FlashState) (c : Command) (h : Reachable s) :
      Reachable (execCommand c s)
  | done_cb (s : FlashState) (h : Reachable s)
      (henv : s.done_callbacks_received < doneCallbacksFor s.sent) :
      Reachable (flash_done_callback s)
  | read_cb (s : FlashState) (data : List Nat) (h : Reachable s)
      (henv : s.read_callbacks_received < readCallbacksFor s.sent) :
      Reachable (flash_read_callback s data)


/-- Checks that in an effect sequence every wire-message send is immediately
preceded by `_add_to_expected_callbacks` of exactly the number of callbacks
that message generates on the STM (`msgDoneCbs + msgReadCbs`). -/
def incrBeforeSendOk : List Action → Bool
  | [] => true
  | Action.send _ _ :: _ => false
  | Action.addExpected n :: Action.send msgId payload :: rest =>
      (n == msgDoneCbs (msgId, payload) + msgReadCbs (msgId, payload)) &&
        incrBeforeSendOk rest
  | _ :: rest => incrBeforeSendOk rest

/-! ### Read sanity check: characterization of `cumAddrs` -/

theorem getD_dropLast_eq (l : List Nat) (i : Nat) (h : i + 1 < l.length) :
    l.dropLast.getD i 0 = l.getD i 0 := by
  induction l generalizing i with
  | nil => simp at h
  | cons a l' ih =>
    cases l' with
    | nil => simp at h
    | cons b l'' =>
      cases i with
      | zero => simp [List.dropLast]
      | succ j =>
        simp only [List.dropLast, List.getD_cons_succ]
        exact ih j (by simpa using h)

theorem eq_cumAddrs_iff (ls : List Nat) (s : Nat) (xs : List Nat) :
    xs = cumAddrs s ls ↔
      xs.length = ls.length + 1 ∧ xs.getD 0 0 = s ∧
        ∀ i, i + 1 < xs.length → xs.getD (i + 1) 0 = xs.getD i 0 + ls.getD i 0 := by
  induction ls generalizing s xs with
  | nil =>
    constructor
    · rintro rfl
      refine ⟨by simp [cumAddrs], by simp [cumAddrs], ?_⟩
      intro i hi
      simp [cumAddrs] at hi
    · rintro ⟨hlen, h0, _⟩
      cases xs with
      | nil => simp at hlen
      | cons x xs' =>
        cases xs' with
        | nil => simp at h0; simp [cumAddrs, h0]
        | cons y ys => simp at hlen
  | cons l ls' ih =>
    cases xs with
    | nil =>
      constructor
      · intro h; cases ls' <;> simp [cumAddrs] at h
      · rintro ⟨hlen, _, _⟩; simp at hlen
    | cons x xs' =>
      rw [show cumAddrs s (l :: ls') = s :: cumAddrs (s + l) ls' from rfl]
      constructor
      · intro heq
        obtain ⟨rfl, htail⟩ : x = s ∧ xs' = cumAddrs (s + l) ls' := by
          exact ⟨(List.cons.injEq _ _ _ _ ▸ heq).1, (List.cons.injEq _ _ _ _ ▸ heq).2⟩
        have h' := (ih (x + l) xs').mp htail
        refine ⟨by simp [h'.1], by simp, ?_⟩
        intro i hi
        cases i with
        | zero =>
          simpa using h'.2.1
        | succ j =>
          simp only [List.getD_cons_succ]
          exact h'.2.2 j (by simpa using hi)
      · rintro ⟨hlen, h0, hstep⟩
        have hx : x = s := by simpa using h0
        subst hx
        have htail : xs' = cumAddrs (x + l) ls' := by
          refine (ih (x + l) xs').mpr ⟨by simpa using hlen, ?_, ?_⟩
          · have := hstep 0 (by simp at hlen ⊢; omega)
            simpa using this
          · intro j hj
            have := hstep (j + 1) (by simpa using Nat.succ_lt_succ hj)
            simpa using this
        rw [htail]


theorem cumAddrs_iff_contiguous (a0 : Nat) (rest lens : List Nat)
    (hlen : lens.length = (a0 :: rest).length) :
    a0 :: rest = cumAddrs a0 lens.dropLast ↔ contiguousFrags (a0 :: rest) lens := by
  rw [eq_cumAddrs_iff]
  simp only [List.length_cons] at hlen
  constructor
  · rintro ⟨-, -, hstep⟩
    intro i hi
    rw [← getD_dropLast_eq lens i (by simp at hi; omega)]
    exact hstep i hi
  · intro hc
    refine ⟨by simp [List.length_dropLast]; omega, by simp, ?_⟩
    intro i hi
    rw [getD_dropLast_eq lens i (by simp at hi; omega)]
    exact hc i hi

/-- **C3 (amended).** For a non-empty accumulated fragment sequence (with one
length per address), the sanity check raises the discontinuous-addresses error
exactly when some consecutive fragment pair fails
`next.address = prev.address + prev.length`; it raises the length-mismatch
error exactly when the addresses are contiguous but the sum of the fragment
lengths differs from the number of accumulated data bytes (the discontinuity
check runs first and shadows a simultaneous length mismatch); and it passes
exactly when both conditions hold. -/
theorem C3_sanity_check_characterization (a0 : Nat) (rest lens data : List Nat)
    (hlen : lens.length = (a0 :: rest).length) :
    (read_cb_sanity_check (a0 :: rest) lens data = some SanityResult.discontinuous ↔
      ¬ contiguousFrags (a0 :: rest) lens)
  ∧ (read_cb_sanity_check (a0 :: rest) lens data = some SanityResult.lengthMismatch ↔
      (contiguousFrags (a0 :: rest) lens ∧ lens.sum ≠ data.length))
  ∧ (read_cb_sanity_check (a0 :: rest) lens data = some SanityResult.ok ↔
      (contiguousFrags (a0 :: rest) lens ∧ lens.sum = data.length)) := by
  have hchar := cumAddrs_iff_contiguous a0 rest lens hlen
  by_cases hd : a0 :: rest = cumAddrs a0 lens.dropLast
  · have hcont : contiguousFrags (a0 :: rest) lens := hchar.mp hd
    by_cases hs : lens.sum = data.length
    · have hval : read_cb_sanity_check (a0 :: rest) lens data = some SanityResult.ok := by
        simp [read_cb_sanity_check, hd, hs]
      rw [hval]
      simp [hcont, hs]
    · have hval : read_cb_sanity_check (a0 :: rest) lens data =
          some SanityResult.lengthMismatch := by
        simp [read_cb_sanity_check, hd, hs]
      rw [hval]
      simp [hcont, hs]
  · have hcont : ¬ contiguousFrags (a0 :: rest) lens := fun hc => hd (hchar.mpr hc)
    have hval : read_cb_sanity_check (a0 :: rest) lens data =
        some SanityResult.discontinuous := by
      simp [read_cb_sanity_check, hd]
    rw [hval]
    simp [hcont]

/-- Witness for `C3_sanity_check_characterization` at the contiguous
two-fragment sequence `(0,16),(16,16)` with 32 accumulated bytes. -/
theorem C3_sanity_check_characterization_witness :
    ([16, 16] : List Nat).length = ([0, 16] : List Nat).length ∧
    ((read_cb_sanity_check [0, 16] [16, 16] (List.replicate 32 0) =
        some SanityResult.discontinuous ↔
      ¬ contiguousFrags [0, 16] [16, 16])
    ∧ (read_cb_sanity_check [0, 16] [16, 16] (List.replicate 32 0) =
        some SanityResult.lengthMismatch ↔
      (contiguousFrags [0, 16] [16, 16] ∧
        ([16, 16] : List Nat).sum ≠ (List.replicate 32 (0 : Nat)).length))
    ∧ (read_cb_sanity_check [0, 16] [16, 16] (List.replicate 32 0) =
        some SanityResult.ok ↔
      (contiguousFrags [0, 16] [16, 16] ∧
        ([16, 16] : List Nat).sum = (List.replicate 32 (0 : Nat)).length))) :=
  ⟨by decide,
    C3_sanity_check_characterization 0 [16] [16, 16] (List.replicate 32 0) (by decide)⟩

/-- Counterexample to C3 as stated: for fragments at addresses `0, 5` with
lengths `3, 0` and no accumulated data, the sum of the lengths (3) differs
from the accumulated byte count (0), yet the check raises the
discontinuous-addresses error, not the length-mismatch error, because the
discontinuity check runs first. -/
theorem C3_counterexample :
    ([3, 0] : List Nat).sum ≠ ([] : List Nat).length ∧
    read_cb_sanity_check [0, 5] [3, 0] [] = some SanityResult.discontinuous ∧
    read_cb_sanity_check [0, 5] [3, 0] [] ≠ some SanityResult.lengthMismatch := by
  decide

/-- **C9.** The sanity check needs at least one accumulated fragment: on an
empty accumulator it has no defined outcome (the `addrs[0]` head access has
no value, rendered `none`), while on any accumulator with at least one
fragment it reaches one of its three outcomes. -/
theorem C9_sanity_check_empty_precondition :
    (∀ lens data : List Nat, read_cb_sanity_check [] lens data = none) ∧
    (∀ (a0 : Nat) (rest lens data : List Nat),
      (read_cb_sanity_check (a0 :: rest) lens data).isSome = true) := by
  constructor
  · intro lens data
    rfl
  · intro a0 rest lens data
    by_cases hd : a0 :: rest = cumAddrs a0 lens.dropLast
    · by_cases hs : lens.sum = data.length
      · simp [read_cb_sanity_check, hd, hs]
      · simp [read_cb_sanity_check, hd, hs]
    · simp [read_cb_sanity_check, hd]

/-! ### Write chunking -/

theorem sendsOf_cons_addExpected (n : Nat) (tr : List Action) :
    sendsOf (Action.addExpected n :: tr) = sendsOf tr := by
  simp [sendsOf]

theorem sendsOf_cons_send (i : Nat) (p : List Nat) (tr : List Action) :
    sendsOf (Action.send i p :: tr) = (i, p) :: sendsOf tr := by
  simp [sendsOf]

theorem sendsOf_cons_resetRead (tr : List Action) :
    sendsOf (Action.resetRead :: tr) = sendsOf tr := by
  simp [sendsOf]

theorem sendsOf_writeActions (addr : Nat) (data : List Nat) :
    sendsOf (writeActions addr data) =
      (writeChunks addr data).map (fun c => (0xF0, packLE4 c.1 ++ [c.2.length] ++ c.2)) := by
  induction addr, data using writeChunks.induct with
  | case1 addr data h ih =>
    rw [writeActions, writeChunks, dif_pos h, dif_pos h,
      sendsOf_cons_addExpected, sendsOf_cons_send, ih, List.map_cons]
  | case2 addr data h =>
    rw [writeActions, writeChunks, dif_neg h, dif_neg h]
    simp [sendsOf]

theorem writeChunks_length (addr : Nat) (data : List Nat) :
    data.length ≠ 0 →
      (writeChunks addr data).length = ceilDiv data.length ADDRS_PER_WRITE_CALLBACK := by
  induction addr, data using writeChunks.induct with
  | case1 addr data h ih =>
    intro _
    rw [writeChunks, dif_pos h, List.length_cons,
      ih (by simp only [ADDRS_PER_WRITE_CALLBACK, List.length_drop] at h ⊢; omega)]
    simp only [ceilDiv, ADDRS_PER_WRITE_CALLBACK, List.length_drop] at h ⊢
    omega
  | case2 addr data h =>
    intro hne
    rw [writeChunks, dif_neg h]
    simp only [ceilDiv, ADDRS_PER_WRITE_CALLBACK] at h ⊢
    simp only [List.length_cons, List.length_nil]
    omega

theorem writeChunks_flatten (addr : Nat) (data : List Nat) :
    ((writeChunks addr data).map Prod.snd).flatten = data := by
  induction addr, data using writeChunks.induct with
  | case1 addr data h ih =>
    rw [writeChunks, dif_pos h, List.map_cons, List.flatten_cons, ih]
    exact List.take_append_drop _ data
  | case2 addr data h =>
    rw [writeChunks, dif_neg h]
    simp

theorem writeChunks_size (addr : Nat) (data : List Nat) :
    ∀ c ∈ writeChunks addr data, c.2.length ≤ ADDRS_PER_WRITE_CALLBACK := by
  induction addr, data using writeChunks.induct with
  | case1 addr data h ih =>
    rw [writeChunks, dif_pos h]
    intro c hc
    rcases List.mem_cons.mp hc with hc | hc
    · subst hc
      simp
    · exact ih c hc
  | case2 addr data h =>
    rw [writeChunks, dif_neg h]
    intro c hc
    rcases List.mem_cons.mp hc with hc | hc
    · subst hc
      simp at h ⊢
      omega
    · simp at hc

theorem writeChunks_getD_fst (addr : Nat) (data : List Nat) :
    ∀ i, i < (writeChunks addr data).length →
      ((writeChunks addr data).getD i (0, [])).1 = addr + ADDRS_PER_WRITE_CALLBACK * i := by
  induction addr, data using writeChunks.induct with
  | case1 addr data h ih =>
    rw [writeChunks, dif_pos h]
    intro i hi
    cases i with
    | zero => simp
    | succ j =>
      simp only [List.getD_cons_succ]
      rw [ih j (by simpa using hi)]
      ring
  | case2 addr data h =>
    rw [writeChunks, dif_neg h]
    intro i hi
    simp at hi
    subst hi
    simp

theorem writeChunks_getD_full (addr : Nat) (data : List Nat) :
    ∀ i, i + 1 < (writeChunks addr data).length →
      ((writeChunks addr data).getD i (0, [])).2.length = ADDRS_PER_WRITE_CALLBACK := by
  induction addr, data using writeChunks.induct with
  | case1 addr data h ih =>
    rw [writeChunks, dif_pos h]
    intro i hi
    cases i with
    | zero =>
      simp only [List.getD_cons_zero]
      simp only [ADDRS_PER_WRITE_CALLBACK] at h ⊢
      simp [List.length_take]
      omega
    | succ j =>
      simp only [List.getD_cons_succ]
      exact ih j (by simpa using hi)
  | case2 addr data h =>
    rw [writeChunks, dif_neg h]
    intro i hi
    simp at hi
/-- Counterexample to C2 as stated: dispatching a write command with the
empty payload emits one wire message (carrying zero data bytes), not
`ceil(0/128) = 0` messages. -/
theorem C2_counterexample :
    (sendsOf (writeActions 0 [])).length ≠
      ceilDiv ([] : List Nat).length ADDRS_PER_WRITE_CALLBACK := by
  rw [writeActions]
  simp [sendsOf, ceilDiv, ADDRS_PER_WRITE_CALLBACK]

/-- **C2 (amended).** For every non-empty payload of length `L`, dispatching
a write command emits exactly `ceil(L/128)` write wire messages, each wrapping
one loop chunk of at most 128 data bytes in a `0xF0` message whose payload is
the packed address, the chunk length byte, and the chunk; consecutive chunk
addresses advance by the previous chunk's length; and concatenating the
chunks in address order reproduces the original payload exactly.  (For the
empty payload the code instead emits one message carrying zero data bytes,
see `C2_counterexample`.) -/
theorem C2_write_chunking (addr : Nat) (data : List Nat) (hne : data ≠ []) :
    sendsOf (writeActions addr data) =
      (writeChunks addr data).map (fun c => (0xF0, packLE4 c.1 ++ [c.2.length] ++ c.2))
  ∧ (sendsOf (writeActions addr data)).length =
      ceilDiv data.length ADDRS_PER_WRITE_CALLBACK
  ∧ (∀ c ∈ writeChunks addr data, c.2.length ≤ ADDRS_PER_WRITE_CALLBACK)
  ∧ ((writeChunks addr data).map Prod.snd).flatten = data
  ∧ (∀ i, i + 1 < (writeChunks addr data).length →
      ((writeChunks addr data).getD (i + 1) (0, [])).1 =
        ((writeChunks addr data).getD i (0, [])).1 +
          ((writeChunks addr data).getD i (0, [])).2.length) := by
  have hlen : data.length ≠ 0 := by
    cases data with
    | nil => exact absurd rfl hne
    | cons a l => simp
  refine ⟨sendsOf_writeActions addr data, ?_, writeChunks_size addr data,
    writeChunks_flatten addr data, ?_⟩
  · rw [sendsOf_writeActions, List.length_map, writeChunks_length addr data hlen]
  · intro i hi
    rw [writeChunks_getD_fst addr data (i + 1) hi,
      writeChunks_getD_fst addr data i (by omega),
      writeChunks_getD_full addr data i hi]
    simp only [ADDRS_PER_WRITE_CALLBACK]
    ring

/-- Witness for `C2_write_chunking` at address 5 and payload `[1, 2]`. -/
theorem C2_write_chunking_witness :
    ([1, 2] : List Nat) ≠ [] ∧
    (sendsOf (writeActions 5 [1, 2]) =
      (writeChunks 5 [1, 2]).map (fun c => (0xF0, packLE4 c.1 ++ [c.2.length] ++ c.2))
    ∧ (sendsOf (writeActions 5 [1, 2])).length =
        ceilDiv ([1, 2] : List Nat).length ADDRS_PER_WRITE_CALLBACK
    ∧ (∀ c ∈ writeChunks 5 [1, 2], c.2.length ≤ ADDRS_PER_WRITE_CALLBACK)
    ∧ ((writeChunks 5 [1, 2]).map Prod.snd).flatten = [1, 2]
    ∧ (∀ i, i + 1 < (writeChunks 5 [1, 2]).length →
        ((writeChunks 5 [1, 2]).getD (i + 1) (0, [])).1 =
          ((writeChunks 5 [1, 2]).getD i (0, [])).1 +
            ((writeChunks 5 [1, 2]).getD i (0, [])).2.length)) :=
  ⟨by decide, C2_write_chunking 5 [1, 2] (by decide)⟩
/-! ### Encoding lemmas and the read dispatch -/

theorem packLE4_length (n : Nat) : (packLE4 n).length = 4 := rfl

theorem decodeLE_packLE4 (n : Nat) : decodeLE (packLE4 n) = n % 4294967296 := by
  simp only [packLE4, decodeLE]
  omega

theorem drop_four_append_packLE4 (a : List Nat) (n : Nat) (ha : a.length = 4) :
    ((a ++ packLE4 n).drop 4) = packLE4 n := by
  rw [← ha, List.drop_left]

theorem take_four_append (a b : List Nat) (ha : a.length = 4) :
    ((a ++ b).take 4) = a := by
  rw [← ha, List.take_left]

/-- **C7.** Dispatching a read command of address `A` and length `L` first
resets the read accumulator to empty (addresses, lengths and data all
cleared), increments `expected` by exactly `ceil(L/16)`, and sends exactly
one read-request wire message carrying `A` and `L`; no other state changes
(the record equality pins every field of the engine state). -/
theorem C7_read_dispatch (s : FlashState) (addr length : Nat) :
    applyActions s (readActions addr length) =
      { s with
        rd_cb_addrs := [],
        rd_cb_lens := [],
        rd_cb_data := [],
        total_callbacks_expected :=
          s.total_callbacks_expected + ceilDiv length ADDRS_PER_READ_CALLBACK,
        sent := s.sent ++ [(0xF1, packLE4 addr ++ packLE4 length)] }
  ∧ sendsOf (readActions addr length) = [(0xF1, packLE4 addr ++ packLE4 length)] := by
  constructor
  · rfl
  · rfl

theorem incrBeforeSendOk_writeActions (addr : Nat) (data : List Nat) :
    incrBeforeSendOk (writeActions addr data) = true := by
  induction addr, data using writeChunks.induct with
  | case1 addr data h ih =>
    rw [writeActions, dif_pos h]
    simp only [incrBeforeSendOk, msgDoneCbs, msgReadCbs]
    simp [ih]
  | case2 addr data h =>
    rw [writeActions, dif_neg h]
    simp [incrBeforeSendOk, msgDoneCbs, msgReadCbs]

/-- **C6.** For every dispatched erase, write or read command, each wire
message send is immediately preceded by an increment of `expected` by the
number of completion callbacks that message will generate; moreover that
per-message number is 1 for an erase message, 1 for each write chunk message,
and `ceil(L/16)` for a read request of length `L` (for `L` below 2^32, the
range `struct.pack` accepts). -/
theorem C6_increment_before_send (addr length : Nat) (data : List Nat)
    (hlength : length < 4294967296) :
    incrBeforeSendOk (eraseActions addr) = true
  ∧ incrBeforeSendOk (writeActions addr data) = true
  ∧ incrBeforeSendOk (readActions addr length) = true
  ∧ msgDoneCbs (0xF2, packLE4 addr) + msgReadCbs (0xF2, packLE4 addr) = 1
  ∧ (∀ c : Nat × List Nat,
      msgDoneCbs (0xF0, packLE4 c.1 ++ [c.2.length] ++ c.2) +
        msgReadCbs (0xF0, packLE4 c.1 ++ [c.2.length] ++ c.2) = 1)
  ∧ msgDoneCbs (0xF1, packLE4 addr ++ packLE4 length) +
      msgReadCbs (0xF1, packLE4 addr ++ packLE4 length) =
        ceilDiv length ADDRS_PER_READ_CALLBACK := by
  refine ⟨?_, incrBeforeSendOk_writeActions addr data, ?_, ?_, ?_, ?_⟩
  · simp [eraseActions, incrBeforeSendOk, msgDoneCbs, msgReadCbs]
  · simp only [readActions, incrBeforeSendOk, msgDoneCbs, msgReadCbs]
    rw [drop_four_append_packLE4 _ _ (packLE4_length addr), decodeLE_packLE4,
      Nat.mod_eq_of_lt hlength]
    simp
  · simp [msgDoneCbs, msgReadCbs]
  · intro c
    simp [msgDoneCbs, msgReadCbs]
  · simp only [msgDoneCbs, msgReadCbs]
    rw [drop_four_append_packLE4 _ _ (packLE4_length addr), decodeLE_packLE4,
      Nat.mod_eq_of_lt hlength]
    simp

/-- Witness for `C6_increment_before_send` at an erase/write/read of
address 1, payload `[2]`, and read length 17. -/
theorem C6_increment_before_send_witness :
    (17 : Nat) < 4294967296 ∧
    (incrBeforeSendOk (eraseActions 1) = true
    ∧ incrBeforeSendOk (writeActions 1 [2]) = true
    ∧ incrBeforeSendOk (readActions 1 17) = true
    ∧ msgDoneCbs (0xF2, packLE4 1) + msgReadCbs (0xF2, packLE4 1) = 1
    ∧ (∀ c : Nat × List Nat,
        msgDoneCbs (0xF0, packLE4 c.1 ++ [c.2.length] ++ c.2) +
          msgReadCbs (0xF0, packLE4 c.1 ++ [c.2.length] ++ c.2) = 1)
    ∧ msgDoneCbs (0xF1, packLE4 1 ++ packLE4 17) +
        msgReadCbs (0xF1, packLE4 1 ++ packLE4 17) =
          ceilDiv 17 ADDRS_PER_READ_CALLBACK) :=
  ⟨by decide, C6_increment_before_send 1 17 [2] (by decide)⟩

/-- **C8.** The wire encodings are bit-exact: a read request is the 4-byte
little-endian address followed by the 4-byte little-endian length; an
erase-sector request is the 4-byte little-endian address; each write request
is the 4-byte little-endian address, a 1-byte length in 0–128, then that many
data bytes; and an inbound read-response fragment is decoded as a 3-byte
big-endian address (top byte implicitly zero), a 1-byte length, then that
many data bytes. -/
theorem C8_wire_encodings (addr length a0 a1 a2 l : Nat)
    (data payload : List Nat) (s : FlashState)
    (haddr : addr < 4294967296) (hlength : length < 4294967296)
    (hpl : payload.length = l) :
    (sendsOf (readActions addr length) = [(0xF1, packLE4 addr ++ packLE4 length)]
      ∧ (packLE4 addr ++ packLE4 length).length = 8
      ∧ decodeLE ((packLE4 addr ++ packLE4 length).take 4) = addr
      ∧ decodeLE ((packLE4 addr ++ packLE4 length).drop 4) = length)
  ∧ (sendsOf (eraseActions addr) = [(0xF2, packLE4 addr)]
      ∧ (packLE4 addr).length = 4
      ∧ decodeLE (packLE4 addr) = addr)
  ∧ (∀ m ∈ sendsOf (writeActions addr data), ∃ a : Nat, ∃ c : List Nat,
      m = (0xF0, packLE4 a ++ [c.length] ++ c) ∧ c.length ≤ 128)
  ∧ flash_read_callback s (a0 :: a1 :: a2 :: l :: payload) =
      { s with
        rd_cb_addrs := s.rd_cb_addrs ++ [a0 * 65536 + a1 * 256 + a2],
        rd_cb_lens := s.rd_cb_lens ++ [l],
        rd_cb_data := s.rd_cb_data ++ payload,
        read_callbacks_received := s.read_callbacks_received + 1 } := by
  refine ⟨⟨rfl, rfl, ?_, ?_⟩, ⟨rfl, rfl, ?_⟩, ?_, ?_⟩
  · rw [take_four_append _ _ (packLE4_length addr), decodeLE_packLE4,
      Nat.mod_eq_of_lt haddr]
  · rw [drop_four_append_packLE4 _ _ (packLE4_length addr), decodeLE_packLE4,
      Nat.mod_eq_of_lt hlength]
  · rw [decodeLE_packLE4, Nat.mod_eq_of_lt haddr]
  · intro m hm
    rw [sendsOf_writeActions] at hm
    obtain ⟨c, hc, rfl⟩ := List.mem_map.mp hm
    exact ⟨c.1, c.2, rfl, writeChunks_size addr data c hc⟩
  · simp [flash_read_callback, decodeBE]
    ring

/-- Witness for `C8_wire_encodings`: a read of (3, 20), an erase of 3, a
write of `[9]`, and an inbound fragment `[1, 2, 3, 2, 7, 8]` against the
initial state. -/
theorem C8_wire_encodings_witness :
    ((3 : Nat) < 4294967296 ∧ (20 : Nat) < 4294967296 ∧
      ([7, 8] : List Nat).length = 2) ∧
    ((sendsOf (readActions 3 20) = [(0xF1, packLE4 3 ++ packLE4 20)]
      ∧ (packLE4 3 ++ packLE4 20).length = 8
      ∧ decodeLE ((packLE4 3 ++ packLE4 20).take 4) = 3
      ∧ decodeLE ((packLE4 3 ++ packLE4 20).drop 4) = 20)
  ∧ (sendsOf (eraseActions 3) = [(0xF2, packLE4 3)]
      ∧ (packLE4 3).length = 4
      ∧ decodeLE (packLE4 3) = 3)
  ∧ (∀ m ∈ sendsOf (writeActions 3 [9]), ∃ a : Nat, ∃ c : List Nat,
      m = (0xF0, packLE4 a ++ [c.length] ++ c) ∧ c.length ≤ 128)
  ∧ flash_read_callback initState (1 :: 2 :: 3 :: 2 :: [7, 8]) =
      { initState with
        rd_cb_addrs := initState.rd_cb_addrs ++ [1 * 65536 + 2 * 256 + 3],
        rd_cb_lens := initState.rd_cb_lens ++ [2],
        rd_cb_data := initState.rd_cb_data ++ [7, 8],
        read_callbacks_received := initState.read_callbacks_received + 1 }) :=
  ⟨⟨by decide, by decide, by decide⟩,
    C8_wire_encodings 3 20 1 2 3 2 [9] [7, 8] initState (by decide) (by decide)
      (by decide)⟩

/-! ### Flow counter invariant -/

theorem doneCallbacksFor_append (sent : List (Nat × List Nat)) (m : Nat × List Nat) :
    doneCallbacksFor (sent ++ [m]) = doneCallbacksFor sent + msgDoneCbs m := by
  simp [doneCallbacksFor]

theorem readCallbacksFor_append (sent : List (Nat × List Nat)) (m : Nat × List Nat) :
    readCallbacksFor (sent ++ [m]) = readCallbacksFor sent + msgReadCbs m := by
  simp [readCallbacksFor]

theorem applyActions_counters (tr : List Action) (s : FlashState) :
    (applyActions s tr).total_callbacks_expected
        = s.total_callbacks_expected + trExpected tr
  ∧ (applyActions s tr).done_callbacks_received = s.done_callbacks_received
  ∧ (applyActions s tr).read_callbacks_received = s.read_callbacks_received
  ∧ doneCallbacksFor (applyActions s tr).sent
        = doneCallbacksFor s.sent + trDoneCbs tr
  ∧ readCallbacksFor (applyActions s tr).sent
        = readCallbacksFor s.sent + trReadCbs tr := by
  induction tr generalizing s with
  | nil =>
    simp [applyActions, trExpected, trDoneCbs, trReadCbs]
  | cons a tr ih =>
    obtain ⟨h1, h2, h3, h4, h5⟩ := ih (applyAction s a)
    have e : applyActions s (a :: tr) = applyActions (applyAction s a) tr := rfl
    rw [e, h1, h2, h3, h4, h5]
    cases a with
    | resetRead =>
      refine ⟨?_, ?_, ?_, ?_, ?_⟩ <;>
        simp [applyAction, trExpected, trDoneCbs, trReadCbs]
    | addExpected n =>
      refine ⟨?_, ?_, ?_, ?_, ?_⟩ <;>
        simp [applyAction, trExpected, trDoneCbs, trReadCbs] <;> omega
    | send msgId payload =>
      refine ⟨?_, ?_, ?_, ?_, ?_⟩ <;>
        simp [applyAction, trExpected, trDoneCbs, trReadCbs,
          doneCallbacksFor_append, readCallbacksFor_append] <;> omega

theorem writeActions_cbs (addr : Nat) (data : List Nat) :
    trDoneCbs (writeActions addr data) = trExpected (writeActions addr data)
  ∧ trReadCbs (writeActions addr data) = 0 := by
  induction addr, data using writeChunks.induct with
  | case1 addr data h ih =>
    rw [writeActions, dif_pos h]
    simp only [trDoneCbs, trExpected, trReadCbs, List.map_cons, List.sum_cons,
      msgDoneCbs, msgReadCbs] at ih ⊢
    simp at ih ⊢
    omega
  | case2 addr data h =>
    rw [writeActions, dif_neg h]
    simp [trDoneCbs, trExpected, trReadCbs, msgDoneCbs, msgReadCbs]

theorem commandActions_cbs_le (c : Command) :
    trDoneCbs (commandActions c) + trReadCbs (commandActions c) ≤
      trExpected (commandActions c) := by
  cases c with
  | erase_sector addr =>
    simp [commandActions, eraseActions, trDoneCbs, trReadCbs, trExpected,
      msgDoneCbs, msgReadCbs]
  | write addr data =>
    have h := writeActions_cbs addr data
    simp only [commandActions]
    omega
  | read addr length =>
    simp only [commandActions, readActions, trDoneCbs, trReadCbs, trExpected,
      List.map_cons, List.map_nil, List.sum_cons, List.sum_nil, msgDoneCbs, msgReadCbs]
    rw [drop_four_append_packLE4 _ _ (packLE4_length addr), decodeLE_packLE4]
    simp only [ceilDiv]
    have hle : length % 4294967296 ≤ length := Nat.mod_le length 4294967296
    have := Nat.div_le_div_right (c := ADDRS_PER_READ_CALLBACK)
      (Nat.add_le_add_right hle (ADDRS_PER_READ_CALLBACK - 1))
    simp [ADDRS_PER_READ_CALLBACK] at this ⊢
    omega

theorem reachable_invariant (s : FlashState) (h : Reachable s) :
    s.done_callbacks_received ≤ doneCallbacksFor s.sent
  ∧ s.read_callbacks_received ≤ readCallbacksFor s.sent
  ∧ doneCallbacksFor s.sent + readCallbacksFor s.sent ≤
      s.total_callbacks_expected := by
  induction h with
  | init =>
    simp [initState, doneCallbacksFor, readCallbacksFor]
  | dispatch s c hr ih =>
    obtain ⟨h1, h2, h3, h4, h5⟩ := applyActions_counters (commandActions c) s
    have hcb := commandActions_cbs_le c
    simp only [execCommand]
    omega
  | done_cb s hr henv ih =>
    have e1 : (flash_done_callback s).sent = s.sent := rfl
    have e2 : (flash_done_callback s).done_callbacks_received =
        s.done_callbacks_received + 1 := rfl
    have e3 : (flash_done_callback s).read_callbacks_received =
        s.read_callbacks_received := rfl
    have e4 : (flash_done_callback s).total_callbacks_expected =
        s.total_callbacks_expected := rfl
    rw [e1, e2, e3, e4]
    omega
  | read_cb s data hr henv ih =>
    have e1 : (flash_read_callback s data).sent = s.sent := rfl
    have e2 : (flash_read_callback s data).done_callbacks_received =
        s.done_callbacks_received := rfl
    have e3 : (flash_read_callback s data).read_callbacks_received =
        s.read_callbacks_received + 1 := rfl
    have e4 : (flash_read_callback s data).total_callbacks_expected =
        s.total_callbacks_expected := rfl
    rw [e1, e2, e3, e4]
    omega

/-- **C1.** At every state reachable by any sequence of erase/write/read
dispatches interleaved with completion and read-fragment callbacks (each
callback answering a message actually sent), the counter invariant
`completed + read_completed ≤ expected` holds, `flash_operations_pending`
equals `expected - completed - read_completed`, and that value is ≥ 0. -/
theorem C1_counter_invariant (s : FlashState) (h : Reachable s) :
    s.done_callbacks_received + s.read_callbacks_received ≤
      s.total_callbacks_expected
  ∧ 0 ≤ flash_operations_pending s
  ∧ flash_operations_pending s = (s.total_callbacks_expected : Int)
      - s.done_callbacks_received - s.read_callbacks_received := by
  have hi := reachable_invariant s h
  refine ⟨by omega, ?_, rfl⟩
  simp only [flash_operations_pending]
  omega

/-- Witness for `C1_counter_invariant`: the state reached by dispatching one
erase command and then receiving its completion callback. -/
theorem C1_counter_invariant_witness :
    (flash_done_callback
        (execCommand (Command.erase_sector 0) initState)).done_callbacks_received
      + (flash_done_callback
          (execCommand (Command.erase_sector 0) initState)).read_callbacks_received
      ≤ (flash_done_callback
          (execCommand (Command.erase_sector 0) initState)).total_callbacks_expected
  ∧ 0 ≤ flash_operations_pending
      (flash_done_callback (execCommand (Command.erase_sector 0) initState))
  ∧ flash_operations_pending
        (flash_done_callback (execCommand (Command.erase_sector 0) initState)) =
      ((flash_done_callback
          (execCommand (Command.erase_sector 0) initState)).total_callbacks_expected : Int)
        - (flash_done_callback
            (execCommand (Command.erase_sector 0) initState)).done_callbacks_received
        - (flash_done_callback
            (execCommand (Command.erase_sector 0) initState)).read_callbacks_received :=
  C1_counter_invariant _
    (Reachable.done_cb _
      (Reachable.dispatch initState (Command.erase_sector 0) Reachable.init)
      (by decide))

/-! ### Dispatcher admission -/

/-- **C5.** In every iteration of the dispatcher loop, a command is popped
exactly when the queue is non-empty and `flash_operations_pending() < 20` at
the moment of the check; the admitted command is then executed whole — all of
its wire messages are emitted in that same iteration with no further
admission check — so `pending()` can overshoot the limit by exactly the
admitted command's expected-callback total, but no new command is ever
dequeued while `pending() ≥ 20`. -/
theorem C5_dispatcher_admission (s : LoopState) :
    (flash_operations_pending s.fs ≥ (PENDING_COMMANDS_LIMIT : Int) →
      runStep s = s)
  ∧ (s.command_queue = [] → runStep s = s)
  ∧ (∀ c rest, s.command_queue = c :: rest →
      flash_operations_pending s.fs < (PENDING_COMMANDS_LIMIT : Int) →
      runStep s = ⟨rest, execCommand c s.fs⟩
        ∧ flash_operations_pending (runStep s).fs =
            flash_operations_pending s.fs + trExpected (commandActions c)) := by
  refine ⟨?_, ?_, ?_⟩
  · intro hge
    rw [runStep, if_neg]
    intro hand
    omega
  · intro hq
    rw [runStep, if_neg]
    intro hand
    exact hand.1 (by simp [hq])
  · intro c rest hq hlt
    have hstep : runStep s = ⟨rest, execCommand c s.fs⟩ := by
      rw [runStep, if_pos ⟨by simp [hq], hlt⟩]
      rcases s with ⟨q, fs⟩
      simp only at hq
      subst hq
      rfl
    refine ⟨hstep, ?_⟩
    rw [hstep]
    obtain ⟨h1, h2, h3, -, -⟩ := applyActions_counters (commandActions c) s.fs
    simp only [execCommand] at *
    simp only [flash_operations_pending, h1, h2, h3]
    push_cast
    ring

/-- Witness for `C5_dispatcher_admission`: a saturated counter (pending = 20)
blocks the dequeue, and a fresh engine (pending = 0) admits and fully
executes the head command. -/
theorem C5_dispatcher_admission_witness :
    (flash_operations_pending
        ({ initState with total_callbacks_expected := 20 } : FlashState) ≥
          (PENDING_COMMANDS_LIMIT : Int)
      ∧ runStep ⟨[Command.erase_sector 0],
            { initState with total_callbacks_expected := 20 }⟩ =
          ⟨[Command.erase_sector 0],
            { initState with total_callbacks_expected := 20 }⟩)
  ∧ (flash_operations_pending initState < (PENDING_COMMANDS_LIMIT : Int)
      ∧ (runStep ⟨[Command.erase_sector 0], initState⟩ =
            ⟨[], execCommand (Command.erase_sector 0) initState⟩
        ∧ flash_operations_pending
              (runStep ⟨[Command.erase_sector 0], initState⟩).fs =
            flash_operations_pending initState +
              trExpected (commandActions (Command.erase_sector 0)))) :=
  ⟨⟨by decide,
    (C5_dispatcher_admission ⟨[Command.erase_sector 0],
      { initState with total_callbacks_expected := 20 }⟩).1 (by decide)⟩,
   ⟨by decide,
    (C5_dispatcher_admission ⟨[Command.erase_sector 0], initState⟩).2.2
      (Command.erase_sector 0) [] rfl (by decide)⟩⟩

/-! ### Image loader: rounding and range lemmas -/

theorem rounddown_sector_eq (x : Nat) :
    rounddown_multiple x SECTORSIZE = SECTORSIZE * (x / SECTORSIZE) := by
  rw [rounddown_multiple]
  simp only [SECTORSIZE]
  split <;> omega

theorem roundup_sector_eq (x : Nat) :
    roundup_multiple x SECTORSIZE = SECTORSIZE * ((x + (SECTORSIZE - 1)) / SECTORSIZE) := by
  rw [roundup_multiple]
  simp only [SECTORSIZE]
  split <;> omega

theorem rounddown_page_eq (x : Nat) :
    rounddown_multiple x ADDRS_PER_WRITE_CALLBACK =
      ADDRS_PER_WRITE_CALLBACK * (x / ADDRS_PER_WRITE_CALLBACK) := by
  rw [rounddown_multiple]
  simp only [ADDRS_PER_WRITE_CALLBACK]
  split <;> omega

theorem roundup_page_eq (x : Nat) :
    roundup_multiple x ADDRS_PER_WRITE_CALLBACK =
      ADDRS_PER_WRITE_CALLBACK *
        ((x + (ADDRS_PER_WRITE_CALLBACK - 1)) / ADDRS_PER_WRITE_CALLBACK) := by
  rw [roundup_multiple]
  simp only [ADDRS_PER_WRITE_CALLBACK]
  split <;> omega

theorem mem_pythonRange_sector (a lo hi : Nat)
    (hlo : lo % SECTORSIZE = 0) (hhi : hi % SECTORSIZE = 0) :
    a ∈ pythonRange lo hi SECTORSIZE ↔
      (a % SECTORSIZE = 0 ∧ lo ≤ a ∧ a < hi) := by
  rw [pythonRange, List.mem_range']
  simp only [SECTORSIZE] at *
  constructor
  · rintro ⟨i, hlt, rfl⟩
    omega
  · intro h
    exact ⟨(a - lo) / (64 * 1024), by omega, by omega⟩

theorem mem_pythonRange_page (a lo hi : Nat)
    (hlo : lo % ADDRS_PER_WRITE_CALLBACK = 0)
    (hhi : hi % ADDRS_PER_WRITE_CALLBACK = 0) :
    a ∈ pythonRange lo hi ADDRS_PER_WRITE_CALLBACK ↔
      (a % ADDRS_PER_WRITE_CALLBACK = 0 ∧ lo ≤ a ∧ a < hi) := by
  rw [pythonRange, List.mem_range']
  simp only [ADDRS_PER_WRITE_CALLBACK] at *
  constructor
  · rintro ⟨i, hlt, rfl⟩
    omega
  · intro h
    exact ⟨(a - lo) / 128, by omega, by omega⟩

theorem pythonRange_nodup (lo hi step : Nat) (h : 0 < step) :
    (pythonRange lo hi step).Nodup :=
  List.nodup_range' _ _ step h

theorem rounddown_sector_mod (x : Nat) :
    rounddown_multiple x SECTORSIZE % SECTORSIZE = 0 := by
  rw [rounddown_sector_eq]
  exact Nat.mul_mod_right _ _

theorem roundup_sector_mod (x : Nat) :
    roundup_multiple x SECTORSIZE % SECTORSIZE = 0 := by
  rw [roundup_sector_eq]
  exact Nat.mul_mod_right _ _

theorem rounddown_page_mod (x : Nat) :
    rounddown_multiple x ADDRS_PER_WRITE_CALLBACK % ADDRS_PER_WRITE_CALLBACK = 0 := by
  rw [rounddown_page_eq]
  exact Nat.mul_mod_right _ _

theorem roundup_page_mod (x : Nat) :
    roundup_multiple x ADDRS_PER_WRITE_CALLBACK % ADDRS_PER_WRITE_CALLBACK = 0 := by
  rw [roundup_page_eq]
  exact Nat.mul_mod_right _ _

theorem count_erase_pythonRange (lo hi a : Nat)
    (hlo : lo % SECTORSIZE = 0) (hhi : hi % SECTORSIZE = 0) :
    ((pythonRange lo hi SECTORSIZE).map Command.erase_sector).count
        (Command.erase_sector a) =
      if a % SECTORSIZE = 0 ∧ lo ≤ a ∧ a < hi then 1 else 0 := by
  have hinj : Function.Injective Command.erase_sector := by
    intro x y h
    injection h
  rw [List.count_map_of_injective _ _ hinj]
  by_cases hc : a % SECTORSIZE = 0 ∧ lo ≤ a ∧ a < hi
  · rw [if_pos hc]
    exact List.count_eq_one_of_mem
      (pythonRange_nodup _ _ _ (by norm_num [SECTORSIZE]))
      ((mem_pythonRange_sector a lo hi hlo hhi).mpr hc)
  · rw [if_neg hc]
    exact List.count_eq_zero_of_not_mem
      (fun hm => hc ((mem_pythonRange_sector a lo hi hlo hhi).mp hm))

theorem count_write_pythonRange (lo hi a : Nat) (g : Nat → List Nat)
    (hlo : lo % ADDRS_PER_WRITE_CALLBACK = 0)
    (hhi : hi % ADDRS_PER_WRITE_CALLBACK = 0) :
    ((pythonRange lo hi ADDRS_PER_WRITE_CALLBACK).map
        (fun addr => Command.write addr (g addr))).count (Command.write a (g a)) =
      if a % ADDRS_PER_WRITE_CALLBACK = 0 ∧ lo ≤ a ∧ a < hi then 1 else 0 := by
  have hinj : Function.Injective (fun addr => Command.write addr (g addr)) := by
    intro x y h
    simp only [Command.write.injEq] at h
    exact h.1
  rw [List.count_map_of_injective _ _ hinj]
  by_cases hc : a % ADDRS_PER_WRITE_CALLBACK = 0 ∧ lo ≤ a ∧ a < hi
  · rw [if_pos hc]
    exact List.count_eq_one_of_mem
      (pythonRange_nodup _ _ _ (by norm_num [ADDRS_PER_WRITE_CALLBACK]))
      ((mem_pythonRange_page a lo hi hlo hhi).mpr hc)
  · rw [if_neg hc]
    exact List.count_eq_zero_of_not_mem
      (fun hm => hc ((mem_pythonRange_page a lo hi hlo hhi).mp hm))

theorem count_erase_in_write_map (l : List Nat) (g : Nat → List Nat) (a : Nat) :
    ((l.map (fun addr => Command.write addr (g addr))).count
      (Command.erase_sector a)) = 0 :=
  List.count_eq_zero_of_not_mem (by
    intro hm
    obtain ⟨x, -, hx⟩ := List.mem_map.mp hm
    exact Command.noConfusion hx)

theorem count_write_in_erase_map (l : List Nat) (a : Nat) (d : List Nat) :
    ((l.map Command.erase_sector).count (Command.write a d)) = 0 :=
  List.count_eq_zero_of_not_mem (by
    intro hm
    obtain ⟨x, -, hx⟩ := List.mem_map.mp hm
    exact Command.noConfusion hx)

/-- **C4.** For every image, `write_ihx` enqueues exactly one Erase command
per `SECTORSIZE` multiple from `floor(min_addr, SECTORSIZE)` up to
(exclusive) `ceil(max_addr, SECTORSIZE)`, followed (all erases before any
write) by exactly one Write command per 128-byte boundary from
`floor(min_addr, 128)` up to (exclusive) `ceil(max_addr, 128)`, each Write
carrying the 128-byte image extract at its address; in particular an image
spanning `[0x1000, 0x1FFF]` yields exactly `Erase 0` followed by Writes at
`0x1000, 0x1080, ..., 0x1F80`. -/
theorem C4_image_loader (ihx : Ihx) (hle : ihx.minaddr ≤ ihx.maxaddr) :
    (∀ a, (write_ihx ihx).count (Command.erase_sector a) =
        if erasedSector ihx a then 1 else 0)
  ∧ (∀ a, (write_ihx ihx).count
        (Command.write a (ihx.tobinstr a ADDRS_PER_WRITE_CALLBACK)) =
        if writtenPage ihx a then 1 else 0)
  ∧ (∀ a d, Command.write a d ∈ write_ihx ihx →
      d = ihx.tobinstr a ADDRS_PER_WRITE_CALLBACK ∧ writtenPage ihx a)
  ∧ (∃ es ws, write_ihx ihx = es ++ ws ∧
      (∀ c ∈ es, ∃ a, erasedSector ihx a ∧ c = Command.erase_sector a) ∧
      (∀ c ∈ ws, ∃ a, writtenPage ihx a ∧
        c = Command.write a (ihx.tobinstr a ADDRS_PER_WRITE_CALLBACK)))
  ∧ (∀ f : Nat → Nat → List Nat,
      write_ihx ⟨0x1000, 0x1FFF, f⟩ =
        Command.erase_sector 0 ::
          (List.range' 0x1000 32 128).map (fun a => Command.write a (f a 128))) := by
  refine ⟨?_, ?_, ?_, ?_, ?_⟩
  · intro a
    rw [write_ihx, List.count_append,
      count_erase_pythonRange _ _ a (rounddown_sector_mod ihx.minaddr)
        (roundup_sector_mod ihx.maxaddr),
      count_erase_in_write_map, Nat.add_zero]
    simp only [erasedSector]
  · intro a
    rw [write_ihx, List.count_append, count_write_in_erase_map, Nat.zero_add]
    have h := count_write_pythonRange
      (rounddown_multiple ihx.minaddr ADDRS_PER_WRITE_CALLBACK)
      (roundup_multiple ihx.maxaddr ADDRS_PER_WRITE_CALLBACK) a
      (fun addr => ihx.tobinstr addr ADDRS_PER_WRITE_CALLBACK)
      (rounddown_page_mod ihx.minaddr) (roundup_page_mod ihx.maxaddr)
    simp only [writtenPage]
    simpa using h
  · intro a d hm
    rw [write_ihx, List.mem_append] at hm
    rcases hm with hm | hm
    · obtain ⟨x, -, hx⟩ := List.mem_map.mp hm
      exact Command.noConfusion hx
    · obtain ⟨x, hx, hxx⟩ := List.mem_map.mp hm
      injection hxx with hx1 hx2
      subst hx1
      exact ⟨hx2.symm, (mem_pythonRange_page _ _ _ (rounddown_page_mod ihx.minaddr)
        (roundup_page_mod ihx.maxaddr)).mp hx⟩
  · refine ⟨_, _, rfl, ?_, ?_⟩
    · intro c hc
      obtain ⟨x, hx, rfl⟩ := List.mem_map.mp hc
      exact ⟨x, (mem_pythonRange_sector x _ _ (rounddown_sector_mod ihx.minaddr)
        (roundup_sector_mod ihx.maxaddr)).mp hx, rfl⟩
    · intro c hc
      obtain ⟨x, hx, rfl⟩ := List.mem_map.mp hc
      exact ⟨x, (mem_pythonRange_page x _ _ (rounddown_page_mod ihx.minaddr)
        (roundup_page_mod ihx.maxaddr)).mp hx, rfl⟩
  · intro f
    simp only [write_ihx, pythonRange, rounddown_multiple, roundup_multiple,
      SECTORSIZE, ADDRS_PER_WRITE_CALLBACK]
    norm_num

/-- Witness for `C4_image_loader` at the concrete image `sampleIhx`
spanning `[0x1000, 0x1FFF]`. -/
theorem C4_image_loader_witness :
    sampleIhx.minaddr ≤ sampleIhx.maxaddr ∧
    ((∀ a, (write_ihx sampleIhx).count (Command.erase_sector a) =
        if erasedSector sampleIhx a then 1 else 0)
  ∧ (∀ a, (write_ihx sampleIhx).count
        (Command.write a (sampleIhx.tobinstr a ADDRS_PER_WRITE_CALLBACK)) =
        if writtenPage sampleIhx a then 1 else 0)
  ∧ (∀ a d, Command.write a d ∈ write_ihx sampleIhx →
      d = sampleIhx.tobinstr a ADDRS_PER_WRITE_CALLBACK ∧ writtenPage sampleIhx a)
  ∧ (∃ es ws, write_ihx sampleIhx = es ++ ws ∧
      (∀ c ∈ es, ∃ a, erasedSector sampleIhx a ∧ c = Command.erase_sector a) ∧
      (∀ c ∈ ws, ∃ a, writtenPage sampleIhx a ∧
        c = Command.write a (sampleIhx.tobinstr a ADDRS_PER_WRITE_CALLBACK)))
  ∧ (∀ f : Nat → Nat → List Nat,
      write_ihx ⟨0x1000, 0x1FFF, f⟩ =
        Command.erase_sector 0 ::
          (List.range' 0x1000 32 128).map (fun a => Command.write a (f a 128)))) :=
  ⟨by decide, C4_image_loader sampleIhx (by decide)⟩

/-- **C10.** For every image with `min_addr ≤ max_addr`, the sectors erased
by the image loader cover every page address targeted by its write phase:
each address in `[floor(min_addr, 128), ceil(max_addr, 128))` lies inside
`[e, e + SECTORSIZE)` for some sector `e` the loader erases. -/
theorem C10_erase_covers_writes (ihx : Ihx) (hle : ihx.minaddr ≤ ihx.maxaddr)
    (a : Nat)
    (h1 : rounddown_multiple ihx.minaddr ADDRS_PER_WRITE_CALLBACK ≤ a)
    (h2 : a < roundup_multiple ihx.maxaddr ADDRS_PER_WRITE_CALLBACK) :
    ∃ e, Command.erase_sector e ∈ write_ihx ihx ∧ e ≤ a ∧ a < e + SECTORSIZE := by
  rw [rounddown_page_eq] at h1
  rw [roundup_page_eq] at h2
  refine ⟨rounddown_multiple a SECTORSIZE, ?_, ?_, ?_⟩
  · rw [write_ihx, List.mem_append]
    left
    refine List.mem_map.mpr ⟨_, ?_, rfl⟩
    refine (mem_pythonRange_sector _ _ _ (rounddown_sector_mod ihx.minaddr)
      (roundup_sector_mod ihx.maxaddr)).mpr ⟨rounddown_sector_mod a, ?_, ?_⟩
    · rw [rounddown_sector_eq, rounddown_sector_eq]
      simp only [SECTORSIZE, ADDRS_PER_WRITE_CALLBACK] at h1 ⊢
      omega
    · rw [rounddown_sector_eq, roundup_sector_eq]
      simp only [SECTORSIZE, ADDRS_PER_WRITE_CALLBACK] at h2 ⊢
      omega
  · rw [rounddown_sector_eq]
    simp only [SECTORSIZE]
    omega
  · rw [rounddown_sector_eq]
    simp only [SECTORSIZE]
    omega

/-- Witness for `C10_erase_covers_writes` at `sampleIhx` and page address
`0x1000`. -/
theorem C10_erase_covers_writes_witness :
    (sampleIhx.minaddr ≤ sampleIhx.maxaddr
      ∧ rounddown_multiple sampleIhx.minaddr ADDRS_PER_WRITE_CALLBACK ≤ 0x1000
      ∧ 0x1000 < roundup_multiple sampleIhx.maxaddr ADDRS_PER_WRITE_CALLBACK)
  ∧ ∃ e, Command.erase_sector e ∈ write_ihx sampleIhx ∧ e ≤ 0x1000 ∧
      0x1000 < e + SECTORSIZE :=
  ⟨⟨by decide, by decide, by decide⟩,
    C10_erase_covers_writes sampleIhx (by decide) 0x1000 (by decide) (by decide)⟩

end PiksiFlash
